import Mathlib

/-!
Verification development for the time-aligned annotation library
(`annotation_utils.py`): temporal primitives (`Interval`, `Point`),
ordered tier containers (`PointTier`, `IntervalTier`), the document
container (`TextGrid`), the gap-filling serialization step, and the
Praat point-tier codec.  Times are modelled as rationals, texts as
strings, file contents as lists of lines (each a list of characters).
All definitions are translated directly from the Python source; loops
are modelled by structural or fuel-based recursion so that every
definition evaluates on concrete inputs.
-/

namespace Tg

/-- Error taxonomy of the library: `ValueError` on a negative or
inverted bound is `invalidRange`, `list.remove` failure is `notFound`,
`IndexError` is `indexOutOfRange`, wrong key/argument kind is
`typeArgument`, and a parse failure inside a codec is
`malformedFormat`. -/
inductive TgError where
  | invalidRange
  | notFound
  | typeArgument
  | indexOutOfRange
  | malformedFormat
deriving DecidableEq, Repr, Inhabited

deriving instance DecidableEq for Except

/-- `Interval(start_time, end_time, text)` as stored: two rational
bounds and a label.  The constructor checks live in `Interval.make`. -/
structure Interval where
  start_time : ℚ
  end_time : ℚ
  text : String
deriving DecidableEq, Repr, Inhabited

/-- `Interval.__init__`: rejects a negative bound with `ValueError`
(`invalidRange`) and silently swaps inverted bounds. -/
def Interval.make (s e : ℚ) (t : String) : Except TgError Interval :=
  if s < 0 then .error .invalidRange
  else if e < 0 then .error .invalidRange
  else if e < s then .ok ⟨e, s, t⟩
  else .ok ⟨s, e, t⟩

/-- The `start_time` setter: `ValueError` (`invalidRange`) when the new
value is negative or exceeds the current end bound. -/
def Interval.setStartTime (iv : Interval) (v : ℚ) : Except TgError Interval :=
  if v < 0 then .error .invalidRange
  else if iv.end_time < v then .error .invalidRange
  else .ok ⟨v, iv.end_time, iv.text⟩

/-- The `end_time` setter: `ValueError` (`invalidRange`) when the new
value is negative or undercuts the current start bound. -/
def Interval.setEndTime (iv : Interval) (v : ℚ) : Except TgError Interval :=
  if v < 0 then .error .invalidRange
  else if v < iv.start_time then .error .invalidRange
  else .ok ⟨iv.start_time, v, iv.text⟩

/-- `Interval.duration`. -/
def Interval.duration (iv : Interval) : ℚ :=
  iv.end_time - iv.start_time

/-- `Interval.overlaps`: strict two-sided test,
`self.start_time < other.end_time and self.end_time > other.start_time`. -/
def Interval.overlaps (a b : Interval) : Bool :=
  decide (a.start_time < b.end_time ∧ b.start_time < a.end_time)

/-- `Point(time, text)`: stored as a single time plus a label.  In the
source a `Point` is an `Interval` with both bounds equal to `time`;
reading `start_time`/`end_time` of a point yields `time`. -/
structure Point where
  time : ℚ
  text : String
deriving DecidableEq, Repr, Inhabited

/-- The `Point.time` setter: assigns both underlying bounds directly,
with no validation of any kind (unlike every other setter in the
source). -/
def Point.setTime (p : Point) (v : ℚ) : Point :=
  ⟨v, p.text⟩

/-- A ranged value: either an `Interval` or a `Point`.  Used to model
the polymorphic comparison operators, whose behaviour depends on the
runtime classes of both operands: for every rich comparison, Python
tries the reflected method of the right operand first whenever its
class is a proper subclass of the left operand's class — also when
that reflected method is merely inherited, as `Point` inherits
`__le__`/`__ge__`/`__eq__` from `Interval`.  Since every comparison
method here returns a plain boolean (never `NotImplemented`), the
first method tried decides the result. -/
inductive Ranged where
  | i (iv : Interval)
  | p (pt : Point)
deriving DecidableEq, Repr

/-- Reading `start_time` of a ranged value (a point reports its time). -/
def Ranged.start_time : Ranged → ℚ
  | .i iv => iv.start_time
  | .p pt => pt.time

/-- Reading `end_time` of a ranged value (a point reports its time). -/
def Ranged.end_time : Ranged → ℚ
  | .i iv => iv.end_time
  | .p pt => pt.time

/-- Whether a ranged value is an `Interval` proper (not a `Point`). -/
def Ranged.isInterval : Ranged → Bool
  | .i _ => true
  | .p _ => false

/-- `a < b` on ranged values.  `Interval.__lt__` is
`self.end_time <= other.start_time`; `Point` overrides `__lt__` to the
strict `self.time < other.start_time`.  When the left operand is an
`Interval` and the right a `Point`, Python calls the reflected
`Point.__gt__` first, which is the strict `other.end_time < self.time`. -/
def Ranged.lt : Ranged → Ranged → Bool
  | .i a, .i b => decide (a.end_time ≤ b.start_time)
  | .i a, .p b => decide (a.end_time < b.time)
  | .p a, .i b => decide (a.time < b.start_time)
  | .p a, .p b => decide (a.time < b.time)

/-- `a > b` on ranged values.  `Interval.__gt__` is
`other.end_time <= self.start_time`; `Point` overrides `__gt__` to the
strict `other.end_time < self.time`.  When the left operand is an
`Interval` and the right a `Point`, Python calls the reflected
`Point.__lt__` first, which is the strict `other.time < self.start_time`. -/
def Ranged.gt : Ranged → Ranged → Bool
  | .i a, .i b => decide (b.end_time ≤ a.start_time)
  | .i a, .p b => decide (b.time < a.start_time)
  | .p a, .i b => decide (b.end_time < a.time)
  | .p a, .p b => decide (b.time < a.time)

/-- `a <= b` on ranged values: `Interval.__le__` is
`self.end_time <= other.end_time`, and `Point` inherits it unchanged
(a point's `end_time` is its `time`).  When the left operand is an
`Interval` and the right a `Point`, the subclass right operand wins
the reflected dispatch even with its inherited `__ge__`, so Python
runs `Point.__ge__(point, interval)`, i.e.
`interval.start_time <= point.time`. -/
def Ranged.le : Ranged → Ranged → Bool
  | .i a, .i b => decide (a.end_time ≤ b.end_time)
  | .i a, .p b => decide (a.start_time ≤ b.time)
  | .p a, .i b => decide (a.time ≤ b.end_time)
  | .p a, .p b => decide (a.time ≤ b.time)

/-- `a >= b` on ranged values: `Interval.__ge__` is
`other.start_time <= self.start_time`, inherited unchanged by `Point`.
When the left operand is an `Interval` and the right a `Point`, Python
runs the reflected inherited `Point.__le__(point, interval)` first,
i.e. `point.time <= interval.end_time`. -/
def Ranged.ge : Ranged → Ranged → Bool
  | .i a, .i b => decide (b.start_time ≤ a.start_time)
  | .i a, .p b => decide (b.time ≤ a.end_time)
  | .p a, .i b => decide (b.start_time ≤ a.time)
  | .p a, .p b => decide (b.time ≤ a.time)

/-- `a == b` on ranged values: `Interval.__eq__`, inherited unchanged by
`Point`, compares both bounds and ignores the text.  The reflected
dispatch (running the point's inherited `__eq__` with swapped
arguments when the right operand is a `Point`) yields the same truth
value, since bounds equality is symmetric. -/
def Ranged.eqB (a b : Ranged) : Bool :=
  decide (a.start_time = b.start_time ∧ a.end_time = b.end_time)

/-- `point in interval` (`Interval.__contains__` on a ranged operand):
`self.start_time <= other.start_time and other.end_time <= self.end_time`;
for a point both of the operand's bounds are its time. -/
def Interval.containsPt (a : Interval) (x : Point) : Bool :=
  decide (a.start_time ≤ x.time ∧ x.time ≤ a.end_time)

/-- `interval in interval` (`Interval.__contains__` on an interval). -/
def Interval.containsIv (a x : Interval) : Bool :=
  decide (a.start_time ≤ x.start_time ∧ x.end_time ≤ a.end_time)

/-- Equality check used by the containers (`Interval.__eq__`): both
bounds match, text ignored. -/
def Interval.eqB (a b : Interval) : Bool :=
  decide (a.start_time = b.start_time ∧ a.end_time = b.end_time)

/-- The binary-search loop of `bisect.bisect_right`, fuel-indexed so the
definition evaluates by reduction.  `pred m` models `x < a[mid]`; the
loop keeps `lo`/`hi` and returns `lo` when they meet.  The fuel is
always instantiated with `hi - lo`, which bounds the iteration count. -/
def bisectAux (pred : Nat → Bool) : Nat → Nat → Nat → Nat
  | 0, lo, _ => lo
  | fuel + 1, lo, hi =>
    if lo < hi then
      if pred ((lo + hi) / 2) then bisectAux pred fuel lo ((lo + hi) / 2)
      else bisectAux pred fuel ((lo + hi) / 2 + 1) hi
    else lo

/-- `bisect_right(objects, point)` inside `PointTier.add_point`: the
comparison `point < objects[mid]` runs `Point.__lt__` on two points,
i.e. the strict `point.time < objects[mid].time`. -/
def ptBisect (l : List Point) (p : Point) : Nat :=
  bisectAux (fun m => decide (p.time < (l.getD m default).time)) l.length 0 l.length

/-- `bisect_right(objects, interval)` inside `IntervalTier.add_interval`:
the comparison `interval < objects[mid]` runs `Interval.__lt__`,
i.e. `interval.end_time <= objects[mid].start_time`. -/
def ivBisect (l : List Interval) (x : Interval) : Nat :=
  bisectAux (fun m => decide (x.end_time ≤ (l.getD m default).start_time)) l.length 0 l.length

/-- `list.remove(probe)`: drop the first element satisfying the
equality test, or report failure when none does. -/
def listRemoveFirst (pred : α → Bool) : List α → Option (List α)
  | [] => none
  | x :: xs => if pred x then some xs else (listRemoveFirst pred xs).map (x :: ·)

/-- `PointTier`: a named tier with its own bounds and a list of points
(the `_objects` list, kept in insertion-sorted order by `add_point`). -/
structure PointTier where
  name : String
  start_time : ℚ
  end_time : ℚ
  objects : List Point
deriving DecidableEq, Repr, Inhabited

/-- `PointTier(name)`: fresh tier with bounds `(0, 0)` and no points. -/
def PointTier.emptyTier (nm : String) : PointTier :=
  ⟨nm, 0, 0, []⟩

/-- `PointTier.add_point`: widen the tier bounds to cover the point,
`bisect_right` for the insertion index, then either (a) if the element
at the found index has the same time, overwrite its text or no-op,
(b) if the index is the length and the last element has the same time,
overwrite its text or no-op, else (c) insert at the found index.
The bounds are widened before the duplicate checks, exactly as in the
source (the two `start_time`/`end_time` setter calls come first). -/
def PointTier.add_point (t : PointTier) (p : Point) (overwrite : Bool) : PointTier :=
  let st := min t.start_time p.time
  let en := max t.end_time p.time
  let l := t.objects
  let i := ptBisect l p
  if i < l.length ∧ (l.getD i default).time = p.time then
    if overwrite then ⟨t.name, st, en, l.set i ⟨p.time, p.text⟩⟩
    else ⟨t.name, st, en, l⟩
  else if 0 < i ∧ i = l.length ∧ (l.getD (l.length - 1) default).time = p.time then
    if overwrite then ⟨t.name, st, en, l.set (l.length - 1) ⟨(l.getD (l.length - 1) default).time, p.text⟩⟩
    else ⟨t.name, st, en, l⟩
  else ⟨t.name, st, en, l.insertIdx i p⟩

/-- `PointTier.add(time, text, overwrite)`: builds the point and
delegates (the `Point` constructor would reject a negative time;
callers in this development only pass non-negative times). -/
def PointTier.add (t : PointTier) (time : ℚ) (text : String) (overwrite : Bool) : PointTier :=
  t.add_point ⟨time, text⟩ overwrite

/-- Folding `add_point` with `overwrite=False` over a list of points. -/
def PointTier.addAll (t : PointTier) (ps : List Point) : PointTier :=
  ps.foldl (fun a p => a.add_point p false) t

/-- `PointTier.remove_point`: `list.remove` with `Point` equality
(bounds only, hence equal times); `ValueError` (`notFound`) when no
stored point matches. -/
def PointTier.remove_point (t : PointTier) (p : Point) : Except TgError PointTier :=
  match listRemoveFirst (fun q => decide (q.time = p.time)) t.objects with
  | some l => .ok ⟨t.name, t.start_time, t.end_time, l⟩
  | none => .error .notFound

/-- `IntervalTier`: a named tier with its own bounds and a list of
intervals (the `_objects` list). -/
structure IntervalTier where
  name : String
  start_time : ℚ
  end_time : ℚ
  objects : List Interval
deriving DecidableEq, Repr, Inhabited

/-- `IntervalTier(name)`: fresh tier with bounds `(0, 0)`. -/
def IntervalTier.emptyTier (nm : String) : IntervalTier :=
  ⟨nm, 0, 0, []⟩

/-- `IntervalTier.add_interval`: same shape as `PointTier.add_point`,
with the duplicate checks using `Interval.__eq__` (both bounds). -/
def IntervalTier.add_interval (t : IntervalTier) (iv : Interval) (overwrite : Bool) : IntervalTier :=
  let st := min t.start_time iv.start_time
  let en := max t.end_time iv.end_time
  let l := t.objects
  let i := ivBisect l iv
  if i < l.length ∧ Interval.eqB (l.getD i default) iv then
    if overwrite then ⟨t.name, st, en, l.set i ⟨(l.getD i default).start_time, (l.getD i default).end_time, iv.text⟩⟩
    else ⟨t.name, st, en, l⟩
  else if 0 < i ∧ i = l.length ∧ Interval.eqB (l.getD (l.length - 1) default) iv then
    if overwrite then ⟨t.name, st, en, l.set (l.length - 1) ⟨(l.getD (l.length - 1) default).start_time, (l.getD (l.length - 1) default).end_time, iv.text⟩⟩
    else ⟨t.name, st, en, l⟩
  else ⟨t.name, st, en, l.insertIdx i iv⟩

/-- `IntervalTier.add(start_time, end_time, text, overwrite)`. -/
def IntervalTier.add (t : IntervalTier) (s e : ℚ) (text : String) (overwrite : Bool) : IntervalTier :=
  t.add_interval ⟨s, e, text⟩ overwrite

/-- Folding `add_interval` with `overwrite=False` over a list. -/
def IntervalTier.addAll (t : IntervalTier) (ivs : List Interval) : IntervalTier :=
  ivs.foldl (fun a iv => a.add_interval iv false) t

/-- `IntervalTier.remove_interval`: `list.remove` with `Interval`
equality (bounds only). -/
def IntervalTier.remove_interval (t : IntervalTier) (iv : Interval) : Except TgError IntervalTier :=
  match listRemoveFirst (fun q => Interval.eqB q iv) t.objects with
  | some l => .ok ⟨t.name, t.start_time, t.end_time, l⟩
  | none => .error .notFound

/-- The loop body of `IntervalTier._fill_in_the_gaps`: walk the stored
intervals with a running cursor, inserting a synthetic empty-text
interval whenever the cursor falls short of the next interval's start. -/
def fillLoop : ℚ → List Interval → List Interval
  | _, [] => []
  | prev, iv :: rest =>
    (if prev < iv.start_time then [⟨prev, iv.start_time, ""⟩] else []) ++ iv :: fillLoop iv.end_time rest

/-- `IntervalTier._fill_in_the_gaps`: run the gap-filling walk from the
tier's `start_time`, then — only when the output is non-empty — append
a final synthetic interval if the last element stops short of the
tier's `end_time`.  The tier itself is left untouched (the function
only returns the new list). -/
def IntervalTier.fill_in_the_gaps (t : IntervalTier) : List Interval :=
  let output := fillLoop t.start_time t.objects
  match output.getLast? with
  | none => output
  | some lastIv =>
    if lastIv.end_time < t.end_time then output ++ [⟨lastIv.end_time, t.end_time, ""⟩]
    else output

/-- Whether a list of intervals tiles `[s, e]` exactly: each element
starts where its predecessor ended (the first at `s`), and the walk
ends at `e`.  The empty list tiles only a degenerate span. -/
def tilingB : ℚ → ℚ → List Interval → Bool
  | s, e, [] => decide (s = e)
  | s, e, iv :: rest => decide (iv.start_time = s) && tilingB iv.end_time e rest

/-- A tier of a document: either a point tier or an interval tier. -/
inductive Tier where
  | pt (t : PointTier)
  | it (t : IntervalTier)
deriving DecidableEq, Repr

instance : Inhabited Tier := ⟨.pt default⟩

/-- Reading a tier's `name`. -/
def Tier.name : Tier → String
  | .pt t => t.name
  | .it t => t.name

/-- Reading a tier's `start_time`. -/
def Tier.start_time : Tier → ℚ
  | .pt t => t.start_time
  | .it t => t.start_time

/-- Reading a tier's `end_time`. -/
def Tier.end_time : Tier → ℚ
  | .pt t => t.end_time
  | .it t => t.end_time

/-- `TextGrid`: a named document with its own bounds and an ordered
list of tiers (the `_objects` list; duplicate names are legal). -/
structure TextGrid where
  name : String
  start_time : ℚ
  end_time : ℚ
  objects : List Tier
deriving DecidableEq, Repr, Inhabited

/-- `TextGrid.append(tier)` (without the optional rename): widen the
document bounds to cover the tier and append it. -/
def TextGrid.append (tg : TextGrid) (t : Tier) : TextGrid :=
  ⟨tg.name, min tg.start_time t.start_time, max tg.end_time t.end_time, tg.objects ++ [t]⟩

/-- A key for `TextGrid.__getitem__`: a tier name or a position. -/
inductive TgKey where
  | str (s : String)
  | int (i : Int)
deriving DecidableEq, Repr

/-- Python list indexing: a negative index counts from the end; an
index outside `[-len, len)` is an `IndexError`. -/
def pyIndex (n : Nat) (i : Int) : Option Nat :=
  let j := if i < 0 then i + n else i
  if 0 ≤ j ∧ j < (n : Int) then some j.toNat else none

/-- `TextGrid.__getitem__`: a string key returns the first tier with
that name, or `None` (`ok none`) when no tier matches; an integer key
indexes positionally and raises `IndexError` (`indexOutOfRange`) when
outside the valid range. -/
def TextGrid.getItem (tg : TextGrid) (k : TgKey) : Except TgError (Option Tier) :=
  match k with
  | .str s => .ok (tg.objects.find? (fun t => t.name == s))
  | .int i =>
    match pyIndex tg.objects.length i with
    | some j => .ok (some (tg.objects.getD j default))
    | none => .error .indexOutOfRange

/-- `TextGrid.index(name)`: position of the first tier with the given
name, or `None`. -/
def TextGrid.index (tg : TextGrid) (nm : String) : Option Nat :=
  tg.objects.findIdx? (fun t => t.name == nm)

/-- The per-tier body of `TextGrid.extract_selected`: keep the elements
contained in the target interval, shift them by `-start`, and feed
them through `add` into a fresh tier carrying the source tier's name.
The `Interval`/`Point` constructors invoked by `add` cannot fail here:
a contained element's shifted bounds are ordered and non-negative. -/
def extractTier (s : ℚ) (target : Interval) : Tier → Tier
  | .pt t =>
    .pt ((t.objects.filter (fun p => target.containsPt p)).foldl
      (fun et p => et.add (p.time - s) p.text false) (PointTier.emptyTier t.name))
  | .it t =>
    .it ((t.objects.filter (fun iv => target.containsIv iv)).foldl
      (fun et iv => et.add (iv.start_time - s) (iv.end_time - s) iv.text false) (IntervalTier.emptyTier t.name))

/-- `TextGrid.extract_selected(file, start, end, name)` applied to the
already-loaded document: build the target `Interval(start, end)` (which
can raise for a negative bound), build the result document with bounds
`(start, end - start)` (its constructor rejects negative values), then
append one extracted tier per source tier. -/
def TextGrid.extract_selected_doc (tg : TextGrid) (s e : ℚ) (nm : String) : Except TgError TextGrid :=
  match Interval.make s e "" with
  | .error err => .error err
  | .ok target =>
    if s < 0 ∨ e - s < 0 then .error .invalidRange
    else
      .ok (tg.objects.foldl (fun acc tier => acc.append (extractTier s target tier))
        (⟨nm, s, e - s, []⟩ : TextGrid))

/-! The Praat point-tier codec.  A file is a list of lines, each a list
of characters.  Python's string helpers are modelled by structural
recursion over character lists. -/

/-- Whitespace as stripped by Python's `str.strip()` (the common
whitespace characters suffice for the formats at hand). -/
def isWs (c : Char) : Bool :=
  c = ' ' || c = '\t' || c = '\n' || c = '\r'

/-- `str.strip()`: drop whitespace from both ends. -/
def stripWs (s : List Char) : List Char :=
  ((s.dropWhile isWs).reverse.dropWhile isWs).reverse

/-- `str.strip('"')`: drop double quotes from both ends. -/
def stripQuotes (s : List Char) : List Char :=
  ((s.dropWhile (· = '"')).reverse.dropWhile (· = '"')).reverse

/-- The text after the last occurrence of a (non-empty) separator, i.e.
`s.split(sep)[-1]`; the whole string when the separator is absent.
Fuel-indexed scan, instantiated with the string's length. -/
def lastFieldAux (sep : List Char) : Nat → List Char → List Char → List Char
  | 0, cur, rest => cur.reverse ++ rest
  | _ + 1, cur, [] => cur.reverse
  | fuel + 1, cur, c :: rest =>
    if sep.isPrefixOf (c :: rest) then
      lastFieldAux sep fuel [] ((c :: rest).drop sep.length)
    else
      lastFieldAux sep fuel (c :: cur) rest

/-- `line.split(sep)[-1]` for a non-empty separator. -/
def lastField (sep s : List Char) : List Char :=
  lastFieldAux sep s.length [] s

/-- Value of a digit string (most significant first). -/
def digitsVal (cs : List Char) : Nat :=
  cs.foldl (fun n c => n * 10 + (c.toNat - '0'.toNat)) 0

/-- Python's `float()` on the plain decimal literals these files carry:
optional sign, integer digits, optional fractional digits, at least one
digit in total; any other shape is a `ValueError`.  (Exponents and the
special named values are outside the formats this codec produces.) -/
def parseFloat (s : List Char) : Option ℚ :=
  let s := stripWs s
  let (sgn, body) : ℚ × List Char :=
    match s with
    | '-' :: rest => (-1, rest)
    | '+' :: rest => (1, rest)
    | _ => (1, s)
  let intPart := body.takeWhile (· ≠ '.')
  let rest := body.dropWhile (· ≠ '.')
  match rest with
  | [] =>
    if intPart ≠ [] ∧ intPart.all (·.isDigit) then some (sgn * digitsVal intPart)
    else none
  | '.' :: frac =>
    if (intPart = [] ∧ frac = []) then none
    else if intPart.all (·.isDigit) ∧ frac.all (·.isDigit) then
      some (sgn * digitsVal (intPart ++ frac) / (10 ^ frac.length : ℚ))
    else none
  | _ => none

/-- Python's `int()` on a plain decimal literal: optional sign and
digits. -/
def parseIntPy (s : List Char) : Option Int :=
  let s := stripWs s
  let (sgn, body) : Int × List Char :=
    match s with
    | '-' :: rest => (-1, rest)
    | '+' :: rest => (1, rest)
    | _ => (1, s)
  if body ≠ [] ∧ body.all (·.isDigit) then some (sgn * digitsVal body)
  else none

/-- Fractional digits of a rational in `[0, 1)`, fuel-bounded (Python's
`repr` of a float prints a terminating decimal; the tiers considered
here carry times with short exact expansions). -/
def fracDigits : Nat → ℚ → List Char
  | 0, _ => []
  | fuel + 1, q =>
    if q = 0 then []
    else
      let q10 := q * 10
      let d := q10.floor
      (toString d).data ++ fracDigits fuel (q10 - (d : ℚ))

/-- The decimal rendering `f'{x}'` of a non-negative float value with a
terminating decimal expansion: integer part, a dot, then the fractional
digits (`0` when there are none, as Python prints `0.0`). -/
def pyRepr (q : ℚ) : List Char :=
  let sgn : List Char := if q < 0 then ['-'] else []
  let a := |q|
  let ip := a.floor
  let fr := a - (ip : ℚ)
  let frs := if fr = 0 then ['0'] else fracDigits 30 fr
  sgn ++ (toString ip).data ++ '.' :: frs

/-- One `points [i]:` block of `PointTier.write`: the marker line, the
time line and the text line. -/
def pointBlock (idx : Nat) (p : Point) : List (List Char) :=
  [("points [".data ++ (toString idx).data ++ "]:".data),
   ("\ttime = ".data ++ pyRepr p.time),
   ("\ttext = ".data ++ p.text.data)]

/-- `PointTier.write(file, object_class)`: the exact sequence of lines
the source emits — note that it writes an `Object class` line twice
(once with the `object_class` parameter, once hard-coded), each
followed by a blank line, before the `xmin`/`xmax`/size lines and the
per-point blocks. -/
def PointTier.writeLines (t : PointTier) (object_class : String) : List (List Char) :=
  ["File type = \"ooTextFile\"".data,
   ("Object class = \"".data ++ object_class.data ++ "\"".data),
   "".data,
   "Object class = \"TextTier\"".data,
   "".data,
   ("xmin = ".data ++ pyRepr t.start_time),
   ("xmax = ".data ++ pyRepr t.end_time),
   ("points: size = ".data ++ (toString t.objects.length).data)]
  ++ (t.objects.enum.map (fun ip => pointBlock (ip.1 + 1) ip.2)).flatten

/-- The per-point loop of `PointTier.read`: for each of `n` blocks,
skip the marker line, parse the time line with `float(...)` and take
the text line (stripping whitespace and quotes), then `add` the point
(whose constructor rejects a negative time).  A missing line is read as
the empty string, which fails the `float` parse. -/
def readPointBlocks : Nat → List (List Char) → PointTier → Except TgError PointTier
  | 0, _, t => .ok t
  | n + 1, ls, t =>
    match parseFloat (lastField " = ".data (ls.getD 1 [])) with
    | none => .error .malformedFormat
    | some time =>
      let text := stripQuotes (stripWs (lastField " = ".data (ls.getD 2 [])))
      if time < 0 then .error .invalidRange
      else readPointBlocks n (ls.drop 3) (t.add time (String.mk text) false)

/-- `PointTier.read(file)` on the file's lines: skip three lines, parse
`xmin` and `xmax` (assigned through the bound setters, which validate),
parse the size line with `int(...)`, then read that many point blocks.
Any line that does not parse aborts the read (`malformedFormat`). -/
def PointTier.readLines (t : PointTier) (lines : List (List Char)) : Except TgError PointTier :=
  let rest := lines.drop 3
  match parseFloat (lastField " = ".data (rest.getD 0 [])) with
  | none => .error .malformedFormat
  | some xmin =>
    if xmin < 0 ∨ t.end_time < xmin then .error .invalidRange
    else
      let t1 : PointTier := ⟨t.name, xmin, t.end_time, t.objects⟩
      match parseFloat (lastField " = ".data (rest.getD 1 [])) with
      | none => .error .malformedFormat
      | some xmax =>
        if xmax < 0 ∨ xmax < t1.start_time then .error .invalidRange
        else
          let t2 : PointTier := ⟨t1.name, t1.start_time, xmax, t1.objects⟩
          match parseIntPy (lastField " = ".data (rest.getD 2 [])) with
          | none => .error .malformedFormat
          | some n => readPointBlocks n.toNat (rest.drop 3) t2

/-! Order relations used to state sortedness of tier contents. -/

/-- Strict time order on points. -/
def ptLt (a b : Point) : Prop :=
  a.time < b.time

instance : DecidableRel ptLt := fun a b => by
  unfold ptLt
  infer_instance

/-- Linear ordered insertion of a point before the first strictly later
point (the reference insertion that `add_point` implements through
binary search when the incoming time is fresh). -/
def ptInsert (p : Point) : List Point → List Point
  | [] => [p]
  | q :: l => if p.time < q.time then p :: q :: l else q :: ptInsert p l

/-- Number of stored points with time strictly below the probe's. -/
def countLt (l : List Point) (p : Point) : Nat :=
  l.countP (fun q => decide (q.time < p.time))

/-- Strict succession of intervals: the earlier one ends no later than
the later one starts, and the two do not share both bounds. -/
def ivOrd (a b : Interval) : Prop :=
  a.end_time ≤ b.start_time ∧ ¬(a.start_time = b.start_time ∧ a.end_time = b.end_time)

instance : DecidableRel ivOrd := fun a b => by
  unfold ivOrd
  infer_instance

/-- Well-formed, duplicate-free, time-sorted tier contents: interval
tiers need ordered bounds on each element and strictly successive
elements; point tiers need strictly increasing times. -/
def Tier.SortedOK : Tier → Prop
  | .pt t => t.objects.Pairwise ptLt
  | .it t => (∀ iv ∈ t.objects, iv.start_time ≤ iv.end_time) ∧ t.objects.Pairwise ivOrd

instance (t : Tier) : Decidable t.SortedOK :=
  match t with
  | .pt t => (inferInstance : Decidable (t.objects.Pairwise ptLt))
  | .it t =>
    (inferInstance :
      Decidable ((∀ iv ∈ t.objects, iv.start_time ≤ iv.end_time) ∧ t.objects.Pairwise ivOrd))

/-- The cursor value after the gap-filling walk: the last interval's
end, or the starting cursor for an empty list. -/
def lastEnd (prev : ℚ) (l : List Interval) : ℚ :=
  l.foldl (fun _ iv => iv.end_time) prev

/-- What §4.4 of the specification promises for one extracted tier:
same name, and exactly the elements fully contained in `[s, e]` (per
the §3 containment relation), each shifted by `-s`. -/
def TierExtractedOK (s e : ℚ) : Tier → Tier → Prop
  | .pt src, .pt out =>
    out.name = src.name ∧
    out.objects = (src.objects.filter (fun p => decide (s ≤ p.time ∧ p.time ≤ e))).map
      (fun p => ⟨p.time - s, p.text⟩)
  | .it src, .it out =>
    out.name = src.name ∧
    out.objects = (src.objects.filter (fun iv => decide (s ≤ iv.start_time ∧ iv.end_time ≤ e))).map
      (fun iv => ⟨iv.start_time - s, iv.end_time - s, iv.text⟩)
  | _, _ => False

/-! Helper lemmas. -/

/-- Correctness of the fuel-indexed binary search: when the probe
predicate is monotone on `[0, N)` with threshold `k`, the loop run on a
subrange containing `k` returns `k`. -/
theorem bisectAux_eq (pred : Nat → Bool) (N k : Nat)
    (hmono : ∀ m, m < N → (pred m = true ↔ k ≤ m)) :
    ∀ fuel lo hi, hi ≤ N → lo ≤ k → k ≤ hi → hi - lo ≤ fuel →
      bisectAux pred fuel lo hi = k := by
  intro fuel
  induction fuel with
  | zero =>
    intro lo hi _ h2 h3 h4
    simp only [bisectAux]
    omega
  | succ n ih =>
    intro lo hi h1 h2 h3 h4
    simp only [bisectAux]
    by_cases hlh : lo < hi
    · simp only [hlh, if_true]
      cases hp : pred ((lo + hi) / 2) with
      | true =>
        simp only [if_true]
        have hk : k ≤ (lo + hi) / 2 := (hmono _ (by omega)).mp hp
        exact ih lo ((lo + hi) / 2) (by omega) h2 hk (by omega)
      | false =>
        simp only [Bool.false_eq_true, if_false]
        have hk : ¬ k ≤ (lo + hi) / 2 := fun hc => by
          have := (hmono _ (by omega)).mpr hc
          simp [hp] at this
        exact ih ((lo + hi) / 2 + 1) hi h1 (by omega) h3 (by omega)
    · simp only [hlh, if_false]
      omega

/-- In a strictly time-sorted list avoiding the probe's time, position
`m` holds a strictly earlier point exactly when `m` lies below the
count of strictly earlier points. -/
theorem countLt_char (p : Point) :
    ∀ l : List Point, l.Pairwise ptLt → (∀ q ∈ l, q.time ≠ p.time) →
      ∀ m, m < l.length → ((l.getD m default).time < p.time ↔ m < countLt l p) := by
  intro l
  induction l with
  | nil => intro _ _ m hm; simp at hm
  | cons q l ih =>
    intro hs hf m hm
    have hsq : ∀ r ∈ l, q.time < r.time := (List.pairwise_cons.mp hs).1
    have hs' : l.Pairwise ptLt := (List.pairwise_cons.mp hs).2
    have hf' : ∀ r ∈ l, r.time ≠ p.time := fun r hr => hf r (List.mem_cons_of_mem q hr)
    by_cases hq : q.time < p.time
    · have hc : countLt (q :: l) p = countLt l p + 1 := by
        simp [countLt, List.countP_cons, hq]
      cases m with
      | zero => simpa [hc] using hq
      | succ m' =>
        have hih := ih hs' hf' m' (by simpa using hm)
        simpa [hc] using hih
    · have hplt : p.time < q.time :=
        lt_of_le_of_ne (not_lt.mp hq) (fun h => hf q (List.mem_cons_self q l) h.symm)
      have hc : countLt (q :: l) p = 0 := by
        have h0 : countLt l p = 0 := by
          simp only [countLt, List.countP_eq_zero]
          intro r hr
          simp only [decide_eq_true_eq, not_lt]
          exact le_of_lt (hplt.trans (hsq r hr))
        simp [countLt, List.countP_cons, hq] at h0 ⊢
        simpa [countLt] using h0
      rw [hc]
      simp only [Nat.not_lt_zero, iff_false, not_lt]
      cases m with
      | zero => simpa using le_of_lt hplt
      | succ m' =>
        have hm' : m' < l.length := by simpa using hm
        have hmem : l.getD m' default ∈ l := by
          rw [List.getD_eq_getElem l default hm']
          exact List.getElem_mem hm'
        simpa using le_of_lt (hplt.trans (hsq _ hmem))

/-- On a strictly sorted list that does not contain the probe's time,
the binary search of `add_point` lands at the count of strictly
earlier points. -/
theorem ptBisect_eq (l : List Point) (p : Point) (hs : l.Pairwise ptLt)
    (hf : ∀ q ∈ l, q.time ≠ p.time) : ptBisect l p = countLt l p := by
  have hkle : countLt l p ≤ l.length := List.countP_le_length _
  refine bisectAux_eq _ l.length (countLt l p) ?_ l.length 0 l.length le_rfl
    (Nat.zero_le _) hkle (by omega)
  intro m hm
  have hchar := countLt_char p l hs hf m hm
  have hmem : l.getD m default ∈ l := by
    rw [List.getD_eq_getElem l default hm]
    exact List.getElem_mem hm
  have hne : (l.getD m default).time ≠ p.time := hf _ hmem
  constructor
  · intro hdec
    have hlt : p.time < (l.getD m default).time := by simpa using hdec
    by_contra hk
    have := hchar.mpr (by omega)
    exact absurd (this.trans hlt) (lt_irrefl _)
  · intro hk
    simp only [decide_eq_true_eq]
    rcases lt_trichotomy p.time (l.getD m default).time with h | h | h
    · exact h
    · exact absurd h.symm hne
    · exact absurd (hchar.mp h) (by omega)

/-- Positional insertion at the count of strictly earlier points agrees
with linear ordered insertion on a sorted, probe-free list. -/
theorem insertIdx_countLt (p : Point) :
    ∀ l : List Point, l.Pairwise ptLt → (∀ q ∈ l, q.time ≠ p.time) →
      l.insertIdx (countLt l p) p = ptInsert p l := by
  intro l
  induction l with
  | nil => intro _ _; simp [countLt, ptInsert]
  | cons q l ih =>
    intro hs hf
    have hsq : ∀ r ∈ l, q.time < r.time := (List.pairwise_cons.mp hs).1
    have hs' : l.Pairwise ptLt := (List.pairwise_cons.mp hs).2
    have hf' : ∀ r ∈ l, r.time ≠ p.time := fun r hr => hf r (List.mem_cons_of_mem q hr)
    by_cases hq : q.time < p.time
    · have hc : countLt (q :: l) p = countLt l p + 1 := by
        simp [countLt, List.countP_cons, hq]
      have hnp : ¬ p.time < q.time := not_lt.mpr (le_of_lt hq)
      rw [hc, List.insertIdx_succ_cons]
      simp only [ptInsert, hnp, if_false]
      rw [ih hs' hf']
    · have hplt : p.time < q.time :=
        lt_of_le_of_ne (not_lt.mp hq) (fun h => hf q (List.mem_cons_self q l) h.symm)
      have hc : countLt (q :: l) p = 0 := by
        have h0 : countLt l p = 0 := by
          simp only [countLt, List.countP_eq_zero]
          intro r hr
          simp only [decide_eq_true_eq, not_lt]
          exact le_of_lt (hplt.trans (hsq r hr))
        simp [countLt, List.countP_cons, hq] at h0 ⊢
        simpa [countLt] using h0
      rw [hc, List.insertIdx_zero]
      simp [ptInsert, hplt]

/-- `add_point` with a time absent from a sorted tier: both duplicate
checks fail and the point is inserted in order; the tier bounds are
widened to cover the point in every case. -/
theorem add_point_fresh (t : PointTier) (p : Point) (ow : Bool)
    (hs : t.objects.Pairwise ptLt) (hf : ∀ q ∈ t.objects, q.time ≠ p.time) :
    t.add_point p ow =
      ⟨t.name, min t.start_time p.time, max t.end_time p.time, ptInsert p t.objects⟩ := by
  have hb := ptBisect_eq t.objects p hs hf
  have hkle : countLt t.objects p ≤ t.objects.length := List.countP_le_length _
  simp only [PointTier.add_point, hb]
  rw [if_neg, if_neg]
  · rw [insertIdx_countLt p t.objects hs hf]
  · rintro ⟨h1, h2, h3⟩
    have hlen : 0 < t.objects.length := by omega
    have hmem : t.objects.getD (t.objects.length - 1) default ∈ t.objects := by
      rw [List.getD_eq_getElem t.objects default (by omega)]
      exact List.getElem_mem _
    exact hf _ hmem h3
  · rintro ⟨h1, h2⟩
    have hmem : t.objects.getD (countLt t.objects p) default ∈ t.objects := by
      rw [List.getD_eq_getElem t.objects default h1]
      exact List.getElem_mem _
    exact hf _ hmem h2

/-- Ordered insertion produces a permutation of consing. -/
theorem ptInsert_perm (p : Point) :
    ∀ l : List Point, List.Perm (ptInsert p l) (p :: l) := by
  intro l
  induction l with
  | nil => simp [ptInsert]
  | cons q l ih =>
    by_cases h : p.time < q.time
    · simp [ptInsert, h]
    · simp only [ptInsert, h, if_false]
      exact (ih.cons q).trans (List.Perm.swap p q l)

/-- Ordered insertion of a fresh time keeps the list strictly sorted. -/
theorem ptInsert_pairwise (p : Point) :
    ∀ l : List Point, l.Pairwise ptLt → (∀ q ∈ l, q.time ≠ p.time) →
      (ptInsert p l).Pairwise ptLt := by
  intro l
  induction l with
  | nil => intro _ _; simp [ptInsert, ptLt]
  | cons q l ih =>
    intro hs hf
    have hsq : ∀ r ∈ l, q.time < r.time := (List.pairwise_cons.mp hs).1
    have hs' : l.Pairwise ptLt := (List.pairwise_cons.mp hs).2
    have hf' : ∀ r ∈ l, r.time ≠ p.time := fun r hr => hf r (List.mem_cons_of_mem q hr)
    by_cases h : p.time < q.time
    · simp only [ptInsert, h, if_true]
      refine List.pairwise_cons.mpr ⟨?_, hs⟩
      intro r hr
      rcases List.mem_cons.mp hr with rfl | hr'
      · exact h
      · exact h.trans (hsq r hr')
    · have hplt : q.time < p.time :=
        lt_of_le_of_ne (not_lt.mp h) (hf q (List.mem_cons_self q l))
      simp only [ptInsert, h, if_false]
      refine List.pairwise_cons.mpr ⟨?_, ih hs' hf'⟩
      intro r hr
      have : r ∈ p :: l := (ptInsert_perm p l).subset hr
      rcases List.mem_cons.mp this with rfl | hr'
      · exact hplt
      · exact hsq r hr'

/-- Folding `add_point` over points whose times are fresh for the tier
and pairwise distinct keeps the contents sorted, and the final contents
are a permutation of the old contents plus the added points. -/
theorem addAll_sorted_perm :
    ∀ (ps : List Point) (t : PointTier),
      t.objects.Pairwise ptLt →
      (∀ a ∈ ps, ∀ q ∈ t.objects, q.time ≠ a.time) →
      ps.Pairwise (fun a b => a.time ≠ b.time) →
      (t.addAll ps).objects.Pairwise ptLt ∧
        List.Perm (t.addAll ps).objects (t.objects ++ ps) := by
  intro ps
  induction ps with
  | nil =>
    intro t hs _ _
    exact ⟨hs, by simp [PointTier.addAll]⟩
  | cons p ps ih =>
    intro t hs hf hd
    have hfp : ∀ q ∈ t.objects, q.time ≠ p.time :=
      fun q hq => hf p (List.mem_cons_self p ps) q hq
    have heq := add_point_fresh t p false hs hfp
    have hs1 : (t.add_point p false).objects.Pairwise ptLt := by
      rw [heq]
      exact ptInsert_pairwise p t.objects hs hfp
    have hperm1 : List.Perm (t.add_point p false).objects (p :: t.objects) := by
      rw [heq]
      exact ptInsert_perm p t.objects
    have hf1 : ∀ a ∈ ps, ∀ q ∈ (t.add_point p false).objects, q.time ≠ a.time := by
      intro a ha q hq
      rcases List.mem_cons.mp (hperm1.subset hq) with rfl | hmem
      · exact (List.pairwise_cons.mp hd).1 a ha
      · exact hf a (List.mem_cons_of_mem p ha) q hmem
    have hrec := ih (t.add_point p false) hs1 hf1 (List.pairwise_cons.mp hd).2
    have hstep : t.addAll (p :: ps) = (t.add_point p false).addAll ps := by
      simp [PointTier.addAll]
    rw [hstep]
    refine ⟨hrec.1, hrec.2.trans ?_⟩
    have h1 : List.Perm ((t.add_point p false).objects ++ ps) ((p :: t.objects) ++ ps) :=
      hperm1.append_right ps
    refine h1.trans ?_
    have hmid : List.Perm (t.objects ++ p :: ps) (p :: (t.objects ++ ps)) := List.perm_middle
    simpa using hmid.symm

/-- Whatever branch `add_point` takes, the tier name is kept and the
bounds are widened to cover the point (the two setter calls precede
the duplicate checks in the source). -/
theorem add_point_bounds (t : PointTier) (p : Point) (ow : Bool) :
    (t.add_point p ow).name = t.name ∧
      (t.add_point p ow).start_time = min t.start_time p.time ∧
      (t.add_point p ow).end_time = max t.end_time p.time := by
  simp only [PointTier.add_point]
  split
  · split <;> exact ⟨rfl, rfl, rfl⟩
  · split
    · split <;> exact ⟨rfl, rfl, rfl⟩
    · exact ⟨rfl, rfl, rfl⟩

/-- Same bounds fact for `add_interval`. -/
theorem add_interval_bounds (t : IntervalTier) (x : Interval) (ow : Bool) :
    (t.add_interval x ow).name = t.name ∧
      (t.add_interval x ow).start_time = min t.start_time x.start_time ∧
      (t.add_interval x ow).end_time = max t.end_time x.end_time := by
  simp only [IntervalTier.add_interval]
  split
  · split <;> exact ⟨rfl, rfl, rfl⟩
  · split
    · split <;> exact ⟨rfl, rfl, rfl⟩
    · exact ⟨rfl, rfl, rfl⟩

/-- The binary search lands at the end when every stored point is
strictly earlier than the probe. -/
theorem ptBisect_append (l : List Point) (p : Point)
    (h : ∀ q ∈ l, q.time < p.time) : ptBisect l p = l.length := by
  refine bisectAux_eq _ l.length l.length ?_ l.length 0 l.length le_rfl
    (Nat.zero_le _) le_rfl (by omega)
  intro m hm
  have hmem : l.getD m default ∈ l := by
    rw [List.getD_eq_getElem l default hm]
    exact List.getElem_mem hm
  constructor
  · intro hdec
    have h1 : p.time < (l.getD m default).time := by simpa using hdec
    exact absurd (h1.trans (h _ hmem)) (lt_irrefl _)
  · intro hk
    omega

/-- `add_point` of a point strictly later than all stored points simply
appends (the end-of-list duplicate check fails because the last stored
time is strictly smaller). -/
theorem add_point_append (t : PointTier) (p : Point) (ow : Bool)
    (h : ∀ q ∈ t.objects, q.time < p.time) :
    t.add_point p ow =
      ⟨t.name, min t.start_time p.time, max t.end_time p.time, t.objects ++ [p]⟩ := by
  have hb := ptBisect_append t.objects p h
  simp only [PointTier.add_point, hb]
  rw [if_neg, if_neg]
  · rw [List.insertIdx_length_self]
  · rintro ⟨h1, _, h3⟩
    have hmem : t.objects.getD (t.objects.length - 1) default ∈ t.objects := by
      rw [List.getD_eq_getElem t.objects default (by omega)]
      exact List.getElem_mem _
    exact absurd h3 (ne_of_lt (h _ hmem))
  · rintro ⟨h1, _⟩
    exact absurd h1 (lt_irrefl _)

/-- Folding `add_point` over strictly increasing points that all lie
strictly after the stored contents appends them in order. -/
theorem addAll_append_pts :
    ∀ (ps : List Point) (t : PointTier),
      (∀ q ∈ t.objects, ∀ a ∈ ps, q.time < a.time) →
      ps.Pairwise ptLt →
      (t.addAll ps).objects = t.objects ++ ps := by
  intro ps
  induction ps with
  | nil => intro t _ _; simp [PointTier.addAll]
  | cons p ps ih =>
    intro t h hd
    have hstep : t.addAll (p :: ps) = (t.add_point p false).addAll ps := by
      simp [PointTier.addAll]
    have heq := add_point_append t p false (fun q hq => h q hq p (List.mem_cons_self p ps))
    have h1 : ∀ q ∈ (t.add_point p false).objects, ∀ a ∈ ps, q.time < a.time := by
      intro q hq a ha
      rw [heq] at hq
      rcases List.mem_append.mp hq with hq' | hq'
      · exact h q hq' a (List.mem_cons_of_mem p ha)
      · rcases List.mem_singleton.mp hq' with rfl
        exact (List.pairwise_cons.mp hd).1 a ha
    rw [hstep, ih _ h1 (List.pairwise_cons.mp hd).2, heq]
    simp

/-- The binary search of `add_interval` lands at the end when every
stored interval strictly precedes the probe (`ivOrd`), all elements
being well-formed. -/
theorem ivBisect_append (l : List Interval) (x : Interval)
    (hwfx : x.start_time ≤ x.end_time)
    (hwf : ∀ a ∈ l, a.start_time ≤ a.end_time)
    (h : ∀ a ∈ l, ivOrd a x) : ivBisect l x = l.length := by
  refine bisectAux_eq _ l.length l.length ?_ l.length 0 l.length le_rfl
    (Nat.zero_le _) le_rfl (by omega)
  intro m hm
  have hmem : l.getD m default ∈ l := by
    rw [List.getD_eq_getElem l default hm]
    exact List.getElem_mem hm
  constructor
  · intro hdec
    have h1 : x.end_time ≤ (l.getD m default).start_time := by simpa using hdec
    rcases h _ hmem with ⟨h2, h3⟩
    have h4 := hwf _ hmem
    exact absurd ⟨by linarith, by linarith⟩ h3
  · intro hk
    omega

/-- `add_interval` of an interval strictly after all stored intervals
appends (the end-of-list duplicate check fails because `ivOrd` rules
out equal bounds). -/
theorem add_interval_append (t : IntervalTier) (x : Interval) (ow : Bool)
    (hwfx : x.start_time ≤ x.end_time)
    (hwf : ∀ a ∈ t.objects, a.start_time ≤ a.end_time)
    (h : ∀ a ∈ t.objects, ivOrd a x) :
    t.add_interval x ow =
      ⟨t.name, min t.start_time x.start_time, max t.end_time x.end_time,
        t.objects ++ [x]⟩ := by
  have hb := ivBisect_append t.objects x hwfx hwf h
  simp only [IntervalTier.add_interval, hb]
  rw [if_neg, if_neg]
  · rw [List.insertIdx_length_self]
  · rintro ⟨h1, _, h3⟩
    have hmem : t.objects.getD (t.objects.length - 1) default ∈ t.objects := by
      rw [List.getD_eq_getElem t.objects default (by omega)]
      exact List.getElem_mem _
    rcases h _ hmem with ⟨_, hne⟩
    exact hne (by simpa [Interval.eqB] using h3)
  · rintro ⟨h1, _⟩
    exact absurd h1 (lt_irrefl _)

/-- Folding `add_interval` over strictly successive intervals that all
lie strictly after the stored contents appends them in order. -/
theorem addAll_append_ivs :
    ∀ (xs : List Interval) (t : IntervalTier),
      (∀ a ∈ t.objects, a.start_time ≤ a.end_time) →
      (∀ x ∈ xs, x.start_time ≤ x.end_time) →
      (∀ a ∈ t.objects, ∀ x ∈ xs, ivOrd a x) →
      xs.Pairwise ivOrd →
      (t.addAll xs).objects = t.objects ++ xs := by
  intro xs
  induction xs with
  | nil => intro t _ _ _ _; simp [IntervalTier.addAll]
  | cons x xs ih =>
    intro t hwf hwfx h hd
    have hstep : t.addAll (x :: xs) = (t.add_interval x false).addAll xs := by
      simp [IntervalTier.addAll]
    have heq := add_interval_append t x false (hwfx x (List.mem_cons_self x xs)) hwf
      (fun a ha => h a ha x (List.mem_cons_self x xs))
    have hwf1 : ∀ a ∈ (t.add_interval x false).objects, a.start_time ≤ a.end_time := by
      intro a ha
      rw [heq] at ha
      rcases List.mem_append.mp ha with ha' | ha'
      · exact hwf a ha'
      · rcases List.mem_singleton.mp ha' with rfl
        exact hwfx a (List.mem_cons_self a xs)
    have h1 : ∀ a ∈ (t.add_interval x false).objects, ∀ y ∈ xs, ivOrd a y := by
      intro a ha y hy
      rw [heq] at ha
      rcases List.mem_append.mp ha with ha' | ha'
      · exact h a ha' y (List.mem_cons_of_mem x hy)
      · rcases List.mem_singleton.mp ha' with rfl
        exact (List.pairwise_cons.mp hd).1 y hy
    rw [hstep, ih _ hwf1 (fun y hy => hwfx y (List.mem_cons_of_mem x hy)) h1
      (List.pairwise_cons.mp hd).2, heq]
    simp

/-- Field-wise description of folding `add_point`: the name is kept and
the bounds are the running min/max over the added times. -/
theorem addAll_bounds_pts :
    ∀ (ps : List Point) (t : PointTier),
      (t.addAll ps).name = t.name ∧
        (t.addAll ps).start_time = ps.foldl (fun m p => min m p.time) t.start_time ∧
        (t.addAll ps).end_time = ps.foldl (fun m p => max m p.time) t.end_time := by
  intro ps
  induction ps with
  | nil => intro t; exact ⟨rfl, rfl, rfl⟩
  | cons p ps ih =>
    intro t
    have hstep : t.addAll (p :: ps) = (t.add_point p false).addAll ps := by
      simp [PointTier.addAll]
    have hb := add_point_bounds t p false
    have hrec := ih (t.add_point p false)
    rw [hstep]
    refine ⟨hrec.1.trans hb.1, ?_, ?_⟩
    · rw [hrec.2.1, hb.2.1]
      simp [List.foldl_cons]
    · rw [hrec.2.2, hb.2.2]
      simp [List.foldl_cons]

/-- Field-wise description of folding `add_interval`. -/
theorem addAll_bounds_ivs :
    ∀ (xs : List Interval) (t : IntervalTier),
      (t.addAll xs).name = t.name ∧
        (t.addAll xs).start_time = xs.foldl (fun m x => min m x.start_time) t.start_time ∧
        (t.addAll xs).end_time = xs.foldl (fun m x => max m x.end_time) t.end_time := by
  intro xs
  induction xs with
  | nil => intro t; exact ⟨rfl, rfl, rfl⟩
  | cons x xs ih =>
    intro t
    have hstep : t.addAll (x :: xs) = (t.add_interval x false).addAll xs := by
      simp [IntervalTier.addAll]
    have hb := add_interval_bounds t x false
    have hrec := ih (t.add_interval x false)
    rw [hstep]
    refine ⟨hrec.1.trans hb.1, ?_, ?_⟩
    · rw [hrec.2.1, hb.2.1]
      simp [List.foldl_cons]
    · rw [hrec.2.2, hb.2.2]
      simp [List.foldl_cons]

/-- A running minimum stays put when it is below every encountered
value. -/
theorem foldl_min_const {α : Type} (f : α → ℚ) :
    ∀ (l : List α) (c : ℚ), (∀ x ∈ l, c ≤ f x) → l.foldl (fun m x => min m (f x)) c = c := by
  intro l
  induction l with
  | nil => intro c _; rfl
  | cons x l ih =>
    intro c h
    have h0 : min c (f x) = c := min_eq_left (h x (List.mem_cons_self x l))
    simp only [List.foldl_cons, h0]
    exact ih c (fun y hy => h y (List.mem_cons_of_mem x hy))

/-- A running maximum stays below any bound dominating the start value
and every encountered value. -/
theorem foldl_max_le {α : Type} (f : α → ℚ) :
    ∀ (l : List α) (c B : ℚ), c ≤ B → (∀ x ∈ l, f x ≤ B) →
      l.foldl (fun m x => max m (f x)) c ≤ B := by
  intro l
  induction l with
  | nil => intro c B hc _; exact hc
  | cons x l ih =>
    intro c B hc h
    simp only [List.foldl_cons]
    exact ih _ B (max_le hc (h x (List.mem_cons_self x l)))
      (fun y hy => h y (List.mem_cons_of_mem x hy))

/-- Folding `TextGrid.append` accumulates the tiers and takes the
running min/max of the bounds. -/
theorem foldl_append_tg :
    ∀ (ts : List Tier) (acc : TextGrid),
      ts.foldl TextGrid.append acc =
        ⟨acc.name,
         ts.foldl (fun m t => min m t.start_time) acc.start_time,
         ts.foldl (fun m t => max m t.end_time) acc.end_time,
         acc.objects ++ ts⟩ := by
  intro ts
  induction ts with
  | nil => intro acc; simp
  | cons t ts ih =>
    intro acc
    simp only [List.foldl_cons]
    rw [ih]
    simp [TextGrid.append]

/-- A running maximum stays put when it dominates every encountered
value. -/
theorem foldl_max_const {α : Type} (f : α → ℚ) :
    ∀ (l : List α) (c : ℚ), (∀ x ∈ l, f x ≤ c) → l.foldl (fun m x => max m (f x)) c = c := by
  intro l
  induction l with
  | nil => intro c _; rfl
  | cons x l ih =>
    intro c h
    have h0 : max c (f x) = c := max_eq_left (h x (List.mem_cons_self x l))
    simp only [List.foldl_cons, h0]
    exact ih c (fun y hy => h y (List.mem_cons_of_mem x hy))

/-- A running minimum over all-zero values, started at a non-negative
value, ends at zero as soon as the list is non-empty. -/
theorem foldl_min_zeros {α : Type} (f : α → ℚ) :
    ∀ (l : List α) (c : ℚ), (∀ x ∈ l, f x = 0) → 0 ≤ c → l ≠ [] →
      l.foldl (fun m x => min m (f x)) c = 0 := by
  intro l
  induction l with
  | nil => intro c _ _ hne; exact absurd rfl hne
  | cons x l ih =>
    intro c h hc _
    have h0 : min c (f x) = 0 := by
      rw [h x (List.mem_cons_self x l)]
      exact min_eq_right hc
    simp only [List.foldl_cons, h0]
    cases l with
    | nil => rfl
    | cons y l' =>
      exact ih 0 (fun z hz => h z (List.mem_cons_of_mem x hz)) le_rfl (by simp)

/-- Pairing a list with its image under a pointwise-related map. -/
theorem forall₂_map_self {α β : Type} (R : α → β → Prop) (f : α → β) :
    ∀ l : List α, (∀ x ∈ l, R x (f x)) → List.Forall₂ R l (l.map f) := by
  intro l
  induction l with
  | nil => intro _; simp
  | cons x l ih =>
    intro h
    simp only [List.map_cons]
    exact List.Forall₂.cons (h x (List.mem_cons_self x l))
      (ih (fun y hy => h y (List.mem_cons_of_mem x hy)))

/-- One tier of `extract_selected`: on sorted, duplicate-free contents
the filter-then-re-add loop yields exactly the contained elements
shifted by `-s`, in a tier whose own bounds are `0` and at most
`e - s`. -/
theorem extractTier_spec (s e : ℚ) (hse : s ≤ e) (tier : Tier) (hok : tier.SortedOK) :
    TierExtractedOK s e tier (extractTier s ⟨s, e, ""⟩ tier) ∧
      (extractTier s ⟨s, e, ""⟩ tier).start_time = 0 ∧
      (extractTier s ⟨s, e, ""⟩ tier).end_time ≤ e - s := by
  cases tier with
  | pt t =>
    have hmemc : ∀ p ∈ t.objects.filter (fun p => decide (s ≤ p.time ∧ p.time ≤ e)),
        s ≤ p.time ∧ p.time ≤ e := by
      intro p hp
      simpa using (List.mem_filter.mp hp).2
    have hfold :
        extractTier s ⟨s, e, ""⟩ (.pt t) =
          .pt ((PointTier.emptyTier t.name).addAll
            ((t.objects.filter (fun p => decide (s ≤ p.time ∧ p.time ≤ e))).map
              (fun p => ⟨p.time - s, p.text⟩))) := by
      simp only [extractTier, Interval.containsPt, PointTier.addAll, PointTier.add,
        List.foldl_map]
    have hpw : ((t.objects.filter (fun p => decide (s ≤ p.time ∧ p.time ≤ e))).map
        (fun p => (⟨p.time - s, p.text⟩ : Point))).Pairwise ptLt := by
      rw [List.pairwise_map]
      refine List.Pairwise.imp ?_ (List.Pairwise.filter _ hok)
      intro a b hab
      simpa [ptLt] using hab
    have hcontents := addAll_append_pts _ (PointTier.emptyTier t.name)
      (by simp [PointTier.emptyTier]) hpw
    have hbounds := addAll_bounds_pts
      ((t.objects.filter (fun p => decide (s ≤ p.time ∧ p.time ≤ e))).map
        (fun p => (⟨p.time - s, p.text⟩ : Point))) (PointTier.emptyTier t.name)
    have hmm : ∀ x ∈ (t.objects.filter (fun p => decide (s ≤ p.time ∧ p.time ≤ e))).map
        (fun p => (⟨p.time - s, p.text⟩ : Point)), 0 ≤ x.time ∧ x.time ≤ e - s := by
      intro x hx
      rcases List.mem_map.mp hx with ⟨p, hp, rfl⟩
      rcases hmemc p hp with ⟨h1, h2⟩
      constructor
      · show 0 ≤ p.time - s
        linarith
      · show p.time - s ≤ e - s
        linarith
    rw [hfold]
    simp only [TierExtractedOK, Tier.start_time, Tier.end_time]
    refine ⟨⟨hbounds.1, ?_⟩, ?_, ?_⟩
    · simpa [PointTier.emptyTier] using hcontents
    · rw [hbounds.2.1]
      exact foldl_min_const _ _ _ (fun x hx => (hmm x hx).1)
    · rw [hbounds.2.2]
      exact foldl_max_le _ _ _ _ (by simp [PointTier.emptyTier]; linarith) (fun x hx => (hmm x hx).2)
  | it t =>
    have hmemc : ∀ iv ∈ t.objects.filter
        (fun iv => decide (s ≤ iv.start_time ∧ iv.end_time ≤ e)),
        s ≤ iv.start_time ∧ iv.end_time ≤ e := by
      intro iv hiv
      simpa using (List.mem_filter.mp hiv).2
    have hfold :
        extractTier s ⟨s, e, ""⟩ (.it t) =
          .it ((IntervalTier.emptyTier t.name).addAll
            ((t.objects.filter (fun iv => decide (s ≤ iv.start_time ∧ iv.end_time ≤ e))).map
              (fun iv => ⟨iv.start_time - s, iv.end_time - s, iv.text⟩))) := by
      simp only [extractTier, Interval.containsIv, IntervalTier.addAll, IntervalTier.add,
        List.foldl_map]
    have hwfsrc := hok.1
    have hpwsrc := hok.2
    have hwfm : ∀ x ∈ (t.objects.filter
        (fun iv => decide (s ≤ iv.start_time ∧ iv.end_time ≤ e))).map
        (fun iv => (⟨iv.start_time - s, iv.end_time - s, iv.text⟩ : Interval)),
        x.start_time ≤ x.end_time := by
      intro x hx
      rcases List.mem_map.mp hx with ⟨iv, hiv, rfl⟩
      have h := hwfsrc iv (List.mem_of_mem_filter hiv)
      show iv.start_time - s ≤ iv.end_time - s
      linarith
    have hpw : ((t.objects.filter (fun iv => decide (s ≤ iv.start_time ∧ iv.end_time ≤ e))).map
        (fun iv => (⟨iv.start_time - s, iv.end_time - s, iv.text⟩ : Interval))).Pairwise ivOrd := by
      rw [List.pairwise_map]
      refine List.Pairwise.imp ?_ (List.Pairwise.filter _ hpwsrc)
      intro a b hab
      rcases hab with ⟨h1, h2⟩
      refine ⟨by simpa using h1, ?_⟩
      intro hc
      rcases hc with ⟨hc1, hc2⟩
      have hc1a : a.start_time - s = b.start_time - s := hc1
      have hc2a : a.end_time - s = b.end_time - s := hc2
      exact h2 ⟨by linarith, by linarith⟩
    have hcontents := addAll_append_ivs _ (IntervalTier.emptyTier t.name)
      (by simp [IntervalTier.emptyTier]) hwfm (by simp [IntervalTier.emptyTier]) hpw
    have hbounds := addAll_bounds_ivs
      ((t.objects.filter (fun iv => decide (s ≤ iv.start_time ∧ iv.end_time ≤ e))).map
        (fun iv => (⟨iv.start_time - s, iv.end_time - s, iv.text⟩ : Interval)))
      (IntervalTier.emptyTier t.name)
    have hmm : ∀ x ∈ (t.objects.filter
        (fun iv => decide (s ≤ iv.start_time ∧ iv.end_time ≤ e))).map
        (fun iv => (⟨iv.start_time - s, iv.end_time - s, iv.text⟩ : Interval)),
        0 ≤ x.start_time ∧ x.end_time ≤ e - s := by
      intro x hx
      rcases List.mem_map.mp hx with ⟨iv, hiv, rfl⟩
      rcases hmemc iv hiv with ⟨h1, h2⟩
      constructor
      · show 0 ≤ iv.start_time - s
        linarith
      · show iv.end_time - s ≤ e - s
        linarith
    rw [hfold]
    simp only [TierExtractedOK, Tier.start_time, Tier.end_time]
    refine ⟨⟨hbounds.1, ?_⟩, ?_, ?_⟩
    · simpa [IntervalTier.emptyTier] using hcontents
    · rw [hbounds.2.1]
      exact foldl_min_const _ _ _ (fun x hx => (hmm x hx).1)
    · rw [hbounds.2.2]
      exact foldl_max_le _ _ _ _ (by simp [IntervalTier.emptyTier]; linarith) (fun x hx => (hmm x hx).2)

/-- The gap-filling walk tiles from the starting cursor to the final
cursor, provided the cursor never overshoots the next interval's
start. -/
theorem fillLoop_tiling :
    ∀ (l : List Interval) (prev : ℚ),
      (∀ b, l.head? = some b → prev ≤ b.start_time) →
      List.Chain' (fun a b => a.end_time ≤ b.start_time) l →
      tilingB prev (lastEnd prev l) (fillLoop prev l) = true := by
  intro l
  induction l with
  | nil => intro prev _ _; simp [fillLoop, lastEnd, tilingB]
  | cons iv rest ih =>
    intro prev hp hc
    have hc' : List.Chain' (fun a b => a.end_time ≤ b.start_time) rest := hc.tail
    have hnext : ∀ b, rest.head? = some b → iv.end_time ≤ b.start_time := by
      cases rest with
      | nil => intro b hb; simp at hb
      | cons b rest' =>
        intro b' hb'
        have h1 := (List.chain'_cons.mp hc).1
        simp at hb'
        rw [← hb']
        exact h1
    have hrec := ih iv.end_time hnext hc'
    have hle : lastEnd prev (iv :: rest) = lastEnd iv.end_time rest := by
      simp [lastEnd]
    have hps : prev ≤ iv.start_time := hp iv (by simp)
    by_cases h : prev < iv.start_time
    · simp only [fillLoop, h, if_true, List.singleton_append, hle]
      simp [tilingB, hrec]
    · have heq : iv.start_time = prev := le_antisymm (not_lt.mp h) hps
      simp only [fillLoop, h, if_false, List.nil_append, hle]
      simp [tilingB, hrec, heq]

/-- Concatenating two tilings tiles the concatenated span. -/
theorem tilingB_append :
    ∀ (l₁ l₂ : List Interval) (s m e : ℚ),
      tilingB s m l₁ = true → tilingB m e l₂ = true → tilingB s e (l₁ ++ l₂) = true := by
  intro l₁
  induction l₁ with
  | nil =>
    intro l₂ s m e h1 h2
    have : s = m := by simpa [tilingB] using h1
    simpa [this] using h2
  | cons iv l₁ ih =>
    intro l₂ s m e h1 h2
    simp only [tilingB, Bool.and_eq_true, decide_eq_true_eq] at h1
    simp only [List.cons_append, tilingB, Bool.and_eq_true, decide_eq_true_eq]
    exact ⟨h1.1, ih l₂ _ m e h1.2 h2⟩

/-- The gap-filling walk of a non-empty list is non-empty. -/
theorem fillLoop_ne_nil (prev : ℚ) (iv : Interval) (rest : List Interval) :
    fillLoop prev (iv :: rest) ≠ [] := by
  simp only [fillLoop]
  by_cases h : prev < iv.start_time <;> simp [h]

/-- The gap-filling walk ends with the last stored interval. -/
theorem fillLoop_getLast :
    ∀ (l : List Interval) (prev : ℚ), l ≠ [] →
      (fillLoop prev l).getLast? = l.getLast? := by
  intro l
  induction l with
  | nil => intro prev h; exact absurd rfl h
  | cons iv rest ih =>
    intro prev _
    cases rest with
    | nil =>
      simp only [fillLoop]
      by_cases h : prev < iv.start_time <;> simp [h]
    | cons b rest' =>
      have hrec := ih iv.end_time (by simp)
      have h2 : (iv :: fillLoop iv.end_time (b :: rest')).getLast? =
          (fillLoop iv.end_time (b :: rest')).getLast? := by
        cases hfl : fillLoop iv.end_time (b :: rest') with
        | nil => exact absurd hfl (fillLoop_ne_nil _ _ _)
        | cons z zs => simp [List.getLast?_cons_cons]
      have h3 : (iv :: b :: rest').getLast? = (b :: rest').getLast? :=
        List.getLast?_cons_cons
      have hstep : fillLoop prev (iv :: b :: rest') =
          (if prev < iv.start_time then [⟨prev, iv.start_time, ""⟩] else []) ++
            iv :: fillLoop iv.end_time (b :: rest') := rfl
      rw [hstep]
      by_cases h : prev < iv.start_time
      · simp only [h, if_true, List.singleton_append]
        rw [List.getLast?_cons_cons, h2, hrec, h3]
      · simp only [h, if_false, List.nil_append]
        rw [h2, hrec, h3]

/-- The final cursor is the last interval's end. -/
theorem lastEnd_eq_getLast :
    ∀ (l : List Interval) (prev : ℚ) (iv : Interval),
      l.getLast? = some iv → lastEnd prev l = iv.end_time := by
  intro l
  induction l with
  | nil => intro prev iv h; simp at h
  | cons b rest ih =>
    intro prev iv h
    cases rest with
    | nil =>
      simp at h
      simp [lastEnd, h]
    | cons c rest' =>
      rw [List.getLast?_cons_cons] at h
      have := ih b.end_time iv h
      simpa [lastEnd] using this

/-- The stored intervals appear, in order, inside the gap-filling
walk's output. -/
theorem fillLoop_sublist :
    ∀ (l : List Interval) (prev : ℚ), l.Sublist (fillLoop prev l) := by
  intro l
  induction l with
  | nil => intro prev; simp [fillLoop]
  | cons iv rest ih =>
    intro prev
    simp only [fillLoop]
    by_cases h : prev < iv.start_time
    · simp only [h, if_true, List.singleton_append]
      exact List.Sublist.cons _ ((ih iv.end_time).cons₂ iv)
    · simp only [h, if_false, List.nil_append]
      exact (ih iv.end_time).cons₂ iv

/-- `list.remove` fails exactly when no element satisfies the test. -/
theorem listRemoveFirst_none {α : Type} (pred : α → Bool) :
    ∀ l : List α, (∀ x ∈ l, pred x = false) → listRemoveFirst pred l = none := by
  intro l
  induction l with
  | nil => intro _; rfl
  | cons x l ih =>
    intro h
    simp only [listRemoveFirst, h x (List.mem_cons_self x l), Bool.false_eq_true, if_false]
    rw [ih (fun y hy => h y (List.mem_cons_of_mem x hy))]
    rfl

/-- `list.remove` drops exactly the first matching element. -/
theorem listRemoveFirst_split {α : Type} (pred : α → Bool) :
    ∀ (l₁ : List α) (x : α) (l₂ : List α), pred x = true → (∀ y ∈ l₁, pred y = false) →
      listRemoveFirst pred (l₁ ++ x :: l₂) = some (l₁ ++ l₂) := by
  intro l₁
  induction l₁ with
  | nil =>
    intro x l₂ hx _
    simp [listRemoveFirst, hx]
  | cons y l₁ ih =>
    intro x l₂ hx h
    have hstep : listRemoveFirst pred ((y :: l₁) ++ x :: l₂) =
        if pred y then some (l₁ ++ x :: l₂)
        else (listRemoveFirst pred (l₁ ++ x :: l₂)).map (y :: ·) := rfl
    rw [hstep]
    simp only [h y (List.mem_cons_self y l₁), Bool.false_eq_true, if_false]
    rw [ih x l₂ hx (fun z hz => h z (List.mem_cons_of_mem y hz))]
    rfl

/-- `findIdx?` misses when no element satisfies the test, from any
starting index. -/
theorem findIdx?_none {α : Type} (p : α → Bool) :
    ∀ (l : List α) (i : Nat), (∀ x ∈ l, p x = false) → List.findIdx? p l i = none := by
  intro l
  induction l with
  | nil => intro i _; rfl
  | cons x l ih =>
    intro i h
    have hstep : List.findIdx? p (x :: l) i =
        if p x then some i else List.findIdx? p l (i + 1) := rfl
    rw [hstep]
    simp only [h x (List.mem_cons_self x l), Bool.false_eq_true, if_false]
    exact ih (i + 1) (fun y hy => h y (List.mem_cons_of_mem x hy))

/-- Python indexing misses outside `[-n, n)`. -/
theorem pyIndex_none (n : Nat) (i : Int) (h : i < -(n : Int) ∨ (n : Int) ≤ i) :
    pyIndex n i = none := by
  simp only [pyIndex]
  by_cases hi : i < 0
  · simp only [hi, if_true]
    rw [if_neg]
    omega
  · simp only [hi, if_false]
    rw [if_neg]
    omega

/-- Python indexing hits inside `[-n, n)`. -/
theorem pyIndex_some (n : Nat) (i : Int) (h1 : -(n : Int) ≤ i) (h2 : i < (n : Int)) :
    ∃ j, pyIndex n i = some j := by
  simp only [pyIndex]
  by_cases hi : i < 0
  · simp only [hi, if_true]
    rw [if_pos (by omega)]
    exact ⟨_, rfl⟩
  · simp only [hi, if_false]
    rw [if_pos (by omega)]
    exact ⟨_, rfl⟩

instance : IsAntisymm Point ptLt :=
  ⟨fun _a _b h1 h2 => by
    unfold ptLt at h1 h2
    exact absurd (lt_trans h1 h2) (lt_irrefl _)⟩

/-! The claims. -/

/-- C1: adding a point (or interval) whose time/bounds match a stored
element should never insert a duplicate, wherever the match sits.  The
code violates this: `bisect_right` returns the position after an equal
element, so the found-position check can only ever fire for the last
element; a match anywhere else inserts a duplicate (with either
`overwrite` value) and grows the tier. -/
theorem c1_duplicate_inserted :
    (PointTier.add_point ⟨"t", 0, 2, [⟨1, "a"⟩, ⟨2, "b"⟩]⟩ ⟨1, "x"⟩ false).objects
        = [⟨1, "a"⟩, ⟨1, "x"⟩, ⟨2, "b"⟩] ∧
      (PointTier.add_point ⟨"t", 0, 2, [⟨1, "a"⟩, ⟨2, "b"⟩]⟩ ⟨1, "x"⟩ true).objects
        = [⟨1, "a"⟩, ⟨1, "x"⟩, ⟨2, "b"⟩] ∧
      (IntervalTier.add_interval ⟨"t", 0, 4, [⟨1, 2, "a"⟩, ⟨3, 4, "b"⟩]⟩ ⟨1, 2, "x"⟩ false).objects
        = [⟨1, 2, "a"⟩, ⟨1, 2, "x"⟩, ⟨3, 4, "b"⟩] := by
  with_unfolding_all decide

/-- C2 counterexample: on a document with no tiers, `extract_selected`
keeps `start` as the result's start bound instead of the promised `0`
(the start bound only becomes `0` through appending an extracted
tier). -/
theorem c2_counterexample :
    TextGrid.extract_selected_doc ⟨"d", 0, 10, []⟩ 2 5 "" = .ok ⟨"", 2, 3, []⟩ ∧
      (2 : ℚ) ≠ 0 := by
  with_unfolding_all decide

/-- C2 (amended): for `0 ≤ start < end` and a loaded document whose
tiers are sorted and duplicate-free, `extract_selected` returns a
document named as requested whose end bound is `end - start`, whose
start bound is `0` when the document has at least one tier (and `start`
when it has none), and whose tiers each keep exactly the elements fully
contained in `[start, end]`, shifted by `-start`. -/
theorem c2_extract_selected (tg : TextGrid) (s e : ℚ) (nm : String)
    (h0 : 0 ≤ s) (hse : s < e) (hok : ∀ t ∈ tg.objects, t.SortedOK) :
    ∃ out, tg.extract_selected_doc s e nm = .ok out ∧
      out.name = nm ∧
      out.end_time = e - s ∧
      out.start_time = (if tg.objects = [] then s else 0) ∧
      List.Forall₂ (TierExtractedOK s e) tg.objects out.objects := by
  have hmk : Interval.make s e "" = .ok ⟨s, e, ""⟩ := by
    simp only [Interval.make]
    rw [if_neg (not_lt.mpr h0), if_neg (not_lt.mpr (by linarith)),
      if_neg (not_lt.mpr (le_of_lt hse))]
  have hcond : ¬ (s < 0 ∨ e - s < 0) := by
    push_neg
    exact ⟨not_lt.mp (not_lt.mpr h0), by linarith⟩
  have heq : tg.extract_selected_doc s e nm =
      .ok ((tg.objects.map (extractTier s ⟨s, e, ""⟩)).foldl TextGrid.append
        ⟨nm, s, e - s, []⟩) := by
    unfold TextGrid.extract_selected_doc
    rw [hmk]
    show (if s < 0 ∨ e - s < 0 then Except.error TgError.invalidRange
      else Except.ok (tg.objects.foldl
        (fun acc tier => acc.append (extractTier s ⟨s, e, ""⟩ tier))
        (⟨nm, s, e - s, []⟩ : TextGrid))) =
      Except.ok ((tg.objects.map (extractTier s ⟨s, e, ""⟩)).foldl TextGrid.append
        ⟨nm, s, e - s, []⟩)
    rw [if_neg hcond]
    congr 1
    exact (List.foldl_map (extractTier s ⟨s, e, ""⟩) TextGrid.append tg.objects
      ⟨nm, s, e - s, []⟩).symm
  rw [heq, foldl_append_tg]
  have hspec := fun t ht => extractTier_spec s e (le_of_lt hse) t (hok t ht)
  refine ⟨_, rfl, rfl, ?_, ?_, ?_⟩
  · exact foldl_max_const _ _ _ (fun x hx => by
      rcases List.mem_map.mp hx with ⟨t, ht, rfl⟩
      exact (hspec t ht).2.2)
  · by_cases hobj : tg.objects = []
    · simp [hobj]
    · rw [if_neg hobj]
      refine foldl_min_zeros _ _ _ (fun x hx => by
        rcases List.mem_map.mp hx with ⟨t, ht, rfl⟩
        exact (hspec t ht).2.1) h0 (by simpa using hobj)
  · show List.Forall₂ (TierExtractedOK s e) tg.objects
      ([] ++ tg.objects.map (extractTier s ⟨s, e, ""⟩))
    rw [List.nil_append]
    exact forall₂_map_self _ _ tg.objects (fun t ht => (hspec t ht).1)

/-- C2 witness: extracting `[2, 5]` from a two-tier document keeps the
fully contained interval (shifted) and drops the one that sticks out. -/
theorem c2_extract_selected_witness :
    ∃ out,
      TextGrid.extract_selected_doc
        ⟨"d", 0, 10, [.it ⟨"A", 0, 10, [⟨1, 3, "x"⟩]⟩, .it ⟨"B", 0, 10, [⟨5/2, 4, "y"⟩]⟩]⟩
        2 5 "" = .ok out ∧
      out.name = "" ∧
      out.end_time = 5 - 2 ∧
      out.start_time =
        (if ([.it ⟨"A", 0, 10, [⟨1, 3, "x"⟩]⟩, .it ⟨"B", 0, 10, [⟨5/2, 4, "y"⟩]⟩] : List Tier)
            = [] then 2 else 0) ∧
      List.Forall₂ (TierExtractedOK 2 5)
        [.it ⟨"A", 0, 10, [⟨1, 3, "x"⟩]⟩, .it ⟨"B", 0, 10, [⟨5/2, 4, "y"⟩]⟩] out.objects := by
  exact c2_extract_selected _ 2 5 "" (by with_unfolding_all decide)
    (by with_unfolding_all decide) (by with_unfolding_all decide)

/-- C3: every negative bound mutation should raise `InvalidRange`.  The
`Interval` setters do, but the `Point.time` setter performs no
validation at all: setting a point's time to `-1` silently succeeds and
leaves the point with a negative time, a state its own constructor
forbids. -/
theorem c3_point_time_setter :
    Point.setTime ⟨1, ""⟩ (-1) = ⟨-1, ""⟩ ∧
      Interval.setStartTime ⟨1, 2, ""⟩ (-1) = .error .invalidRange ∧
      Interval.setEndTime ⟨1, 2, ""⟩ (-1) = .error .invalidRange := by
  with_unfolding_all decide

/-- C4: a written point tier should read back identically.  It cannot:
`PointTier.write` emits the `Object class` header line twice (five
header lines in total) while `read` skips exactly three lines, so the
fourth written line `Object class = "TextTier"` is handed to `float()`
as the `xmin` field and every write-then-read fails with a parse
error, for every tier and every `object_class` argument. -/
theorem c4_write_read_fails (t t0 : PointTier) (oc : String) :
    t0.readLines (t.writeLines oc) = .error .malformedFormat := by
  simp only [PointTier.readLines]
  have h1 : ((t.writeLines oc).drop 3).getD 0 [] = "Object class = \"TextTier\"".data := by
    simp [PointTier.writeLines]
  rw [h1]
  have h2 : parseFloat (lastField " = ".data "Object class = \"TextTier\"".data) = none := by
    with_unfolding_all decide
  rw [h2]

/-- C5 counterexample: two points sharing a time but with different
texts are distinct points, yet the two insertion orders keep different
texts (with `overwrite=false` the first inserted wins), so order
independence fails on time collisions. -/
theorem c5_counterexample :
    ((PointTier.emptyTier "t").addAll [⟨1, "a"⟩, ⟨1, "b"⟩]).objects = [⟨1, "a"⟩] ∧
      ((PointTier.emptyTier "t").addAll [⟨1, "b"⟩, ⟨1, "a"⟩]).objects = [⟨1, "b"⟩] ∧
      List.Perm [(⟨1, "a"⟩ : Point), ⟨1, "b"⟩] [⟨1, "b"⟩, ⟨1, "a"⟩] := by
  with_unfolding_all decide

/-- C5 (amended): for points with pairwise distinct times, inserting
any two permutations into an initially empty `PointTier` via `add`
yields identical final element sequences. -/
theorem c5_order_independent (nm : String) (ps1 ps2 : List Point)
    (hperm : List.Perm ps1 ps2)
    (hdist : ps1.Pairwise fun a b => a.time ≠ b.time) :
    ((PointTier.emptyTier nm).addAll ps1).objects =
      ((PointTier.emptyTier nm).addAll ps2).objects := by
  have hd2 : ps2.Pairwise (fun a b => a.time ≠ b.time) :=
    hperm.pairwise hdist (fun h => Ne.symm h)
  have h1 := addAll_sorted_perm ps1 (PointTier.emptyTier nm)
    (by simp [PointTier.emptyTier]) (by simp [PointTier.emptyTier]) hdist
  have h2 := addAll_sorted_perm ps2 (PointTier.emptyTier nm)
    (by simp [PointTier.emptyTier]) (by simp [PointTier.emptyTier]) hd2
  have a1 := h1.2
  have a2 := h2.2
  rw [show (PointTier.emptyTier nm).objects ++ ps1 = ps1 from rfl] at a1
  rw [show (PointTier.emptyTier nm).objects ++ ps2 = ps2 from rfl] at a2
  exact List.eq_of_perm_of_sorted (a1.trans (hperm.trans a2.symm)) h1.1 h2.1

/-- C5 witness: the two orders of two distinct-time points agree. -/
theorem c5_order_independent_witness :
    ((PointTier.emptyTier "t").addAll [⟨2, "b"⟩, ⟨1, "a"⟩]).objects =
      ((PointTier.emptyTier "t").addAll [⟨1, "a"⟩, ⟨2, "b"⟩]).objects :=
  c5_order_independent "t" _ _ (by with_unfolding_all decide) (by with_unfolding_all decide)

/-- C6 counterexample: for two points at the same time, the claim's
rule `a < b iff a.end_time ≤ b.start_time` demands `a < b`, but
`Point.__lt__` is strict, so `a < b` is false. -/
theorem c6_counterexample :
    Ranged.lt (.p ⟨1, ""⟩) (.p ⟨1, ""⟩) = false ∧
      Ranged.end_time (.p ⟨1, ""⟩) ≤ Ranged.start_time (.p ⟨1, ""⟩) := by
  with_unfolding_all decide

/-- C6 (amended): between two `Interval`s, `<` and `>` are the stated
non-strict bound comparisons; as soon as either operand is a `Point`
(whose overriding strict `__lt__`/`__gt__` also win the reflected
dispatch), they are strict.  `<=` and `>=` follow the stated rules
(`a.end_time <= b.end_time`, `b.start_time <= a.start_time`) except
when the left operand is an `Interval` and the right a `Point`: there
the subclass right operand wins the reflected dispatch with its
inherited `__ge__`/`__le__`, giving `a <= b` iff the interval's start
is at most the point's time, and `a >= b` iff the point's time is at
most the interval's end.  `==` compares both bounds for all ranged
values, text ignored. -/
theorem c6_comparisons (a b : Ranged) :
    (Ranged.lt a b = true ↔
      (if a.isInterval && b.isInterval then a.end_time ≤ b.start_time
       else a.end_time < b.start_time)) ∧
    (Ranged.gt a b = true ↔
      (if a.isInterval && b.isInterval then b.end_time ≤ a.start_time
       else b.end_time < a.start_time)) ∧
    (Ranged.le a b = true ↔
      (if a.isInterval && !b.isInterval then a.start_time ≤ b.end_time
       else a.end_time ≤ b.end_time)) ∧
    (Ranged.ge a b = true ↔
      (if a.isInterval && !b.isInterval then b.start_time ≤ a.end_time
       else b.start_time ≤ a.start_time)) ∧
    (Ranged.eqB a b = true ↔ (a.start_time = b.start_time ∧ a.end_time = b.end_time)) := by
  cases a <;> cases b <;>
    simp [Ranged.lt, Ranged.gt, Ranged.le, Ranged.ge, Ranged.eqB, Ranged.isInterval,
      Ranged.start_time, Ranged.end_time]

/-- C7 counterexample: an empty tier with `start_time < end_time`
yields the empty list, which tiles no non-degenerate span (the final
synthetic interval is only appended when the output is non-empty). -/
theorem c7_counterexample :
    IntervalTier.fill_in_the_gaps ⟨"t", 0, 1, []⟩ = [] ∧ tilingB 0 1 [] = false := by
  with_unfolding_all decide

/-- C7 (amended): for a tier with at least one stored interval, whose
intervals are chained in order, whose `start_time` does not exceed the
first interval's start and whose `end_time` is at least the final
cursor, `_fill_in_the_gaps` returns a fully-tiling partition of
`[start_time, end_time]` containing the stored intervals as a
subsequence (the tier itself is returned untouched — the function only
builds a new list). -/
theorem c7_fill_in_the_gaps (t : IntervalTier)
    (hne : t.objects ≠ [])
    (hchain : List.Chain' (fun a b => a.end_time ≤ b.start_time) t.objects)
    (hfirst : ∀ b, t.objects.head? = some b → t.start_time ≤ b.start_time)
    (hlast : lastEnd t.start_time t.objects ≤ t.end_time) :
    tilingB t.start_time t.end_time t.fill_in_the_gaps = true ∧
      t.objects.Sublist t.fill_in_the_gaps := by
  obtain ⟨lv, hlv⟩ : ∃ lv, t.objects.getLast? = some lv := by
    cases hobj : t.objects.getLast? with
    | some v => exact ⟨v, rfl⟩
    | none => exact absurd (List.getLast?_eq_none_iff.mp hobj) hne
  have hfl := fillLoop_getLast t.objects t.start_time hne
  have hout : (fillLoop t.start_time t.objects).getLast? = some lv := by rw [hfl, hlv]
  have htil := fillLoop_tiling t.objects t.start_time hfirst hchain
  have hlee : lastEnd t.start_time t.objects = lv.end_time := lastEnd_eq_getLast _ _ _ hlv
  rw [hlee] at htil hlast
  have hsub := fillLoop_sublist t.objects t.start_time
  have hdef : t.fill_in_the_gaps =
      (if lv.end_time < t.end_time then
        fillLoop t.start_time t.objects ++ [⟨lv.end_time, t.end_time, ""⟩]
      else fillLoop t.start_time t.objects) := by
    simp only [IntervalTier.fill_in_the_gaps]
    rw [hout]
  rw [hdef]
  by_cases hc : lv.end_time < t.end_time
  · simp only [hc, if_true]
    constructor
    · refine tilingB_append _ _ _ _ _ htil ?_
      simp [tilingB]
    · exact hsub.trans (List.sublist_append_left _ _)
  · have hev : lv.end_time = t.end_time := le_antisymm hlast (not_lt.mp hc)
    simp only [hc, if_false]
    rw [← hev]
    exact ⟨htil, hsub⟩

/-- C7 witness: a tier with two separated intervals tiles `[0, 4]`
after gap filling. -/
theorem c7_fill_in_the_gaps_witness :
    tilingB 0 4 (IntervalTier.fill_in_the_gaps ⟨"t", 0, 4, [⟨1, 2, "a"⟩, ⟨3, 4, "b"⟩]⟩) = true ∧
      List.Sublist [⟨1, 2, "a"⟩, ⟨3, 4, "b"⟩]
        (IntervalTier.fill_in_the_gaps ⟨"t", 0, 4, [⟨1, 2, "a"⟩, ⟨3, 4, "b"⟩]⟩) := by
  exact c7_fill_in_the_gaps ⟨"t", 0, 4, [⟨1, 2, "a"⟩, ⟨3, 4, "b"⟩]⟩
    (by with_unfolding_all decide)
    (by
      refine List.chain'_cons.mpr ⟨?_, List.chain'_singleton _⟩
      with_unfolding_all decide)
    (by
      intro b hb
      simp only [List.head?_cons, Option.some.injEq] at hb
      rw [← hb]
      with_unfolding_all decide)
    (by with_unfolding_all decide)

/-- C8 counterexample: a zero-duration interval does overlap an
interval whose open interior contains its time point, contradicting
"zero-duration intervals never overlap anything". -/
theorem c8_counterexample :
    Interval.duration ⟨1, 1, ""⟩ = 0 ∧ Interval.overlaps ⟨1, 1, ""⟩ ⟨0, 2, ""⟩ = true := by
  with_unfolding_all decide

/-- C8 (amended): `a.overlaps(a)` iff `a` has positive duration; a
zero-duration interval never overlaps itself, and it overlaps exactly
those intervals whose open interior contains its time point, in either
operand order. -/
theorem c8_overlaps (a z b : Interval) (hz : z.duration = 0) :
    (a.overlaps a = true ↔ 0 < a.duration) ∧
      z.overlaps z = false ∧
      (z.overlaps b = true ↔ b.start_time < z.start_time ∧ z.start_time < b.end_time) ∧
      (b.overlaps z = true ↔ b.start_time < z.start_time ∧ z.start_time < b.end_time) := by
  have hez : z.end_time = z.start_time := by
    unfold Interval.duration at hz
    linarith
  refine ⟨?_, ?_, ?_, ?_⟩
  · simp only [Interval.overlaps, Interval.duration, decide_eq_true_eq]
    constructor
    · rintro ⟨h1, _⟩
      linarith
    · intro h
      exact ⟨by linarith, by linarith⟩
  · simp only [Interval.overlaps]
    apply decide_eq_false
    rintro ⟨h1, h2⟩
    linarith
  · simp only [Interval.overlaps, decide_eq_true_eq, hez]
    constructor
    · rintro ⟨h1, h2⟩
      exact ⟨h2, h1⟩
    · rintro ⟨h1, h2⟩
      exact ⟨h2, h1⟩
  · simp only [Interval.overlaps, decide_eq_true_eq, hez]

/-- C8 witness: evaluated at `a = (0,1)`, `z = (1,1)`, `b = (0,2)`. -/
theorem c8_overlaps_witness :
    (Interval.overlaps ⟨0, 1, ""⟩ ⟨0, 1, ""⟩ = true ↔ 0 < Interval.duration ⟨0, 1, ""⟩) ∧
      Interval.overlaps ⟨1, 1, ""⟩ ⟨1, 1, ""⟩ = false ∧
      (Interval.overlaps ⟨1, 1, ""⟩ ⟨0, 2, ""⟩ = true ↔
        (0 : ℚ) < 1 ∧ (1 : ℚ) < 2) ∧
      (Interval.overlaps ⟨0, 2, ""⟩ ⟨1, 1, ""⟩ = true ↔
        (0 : ℚ) < 1 ∧ (1 : ℚ) < 2) :=
  c8_overlaps ⟨0, 1, ""⟩ ⟨1, 1, ""⟩ ⟨0, 2, ""⟩ (by with_unfolding_all decide)

/-- C9: `remove`/`remove_point`/`remove_interval` drop the first stored
element exactly equal by bounds to the probe, keeping the tier's name
and bounds; when no stored element matches, they fail with `NotFound`
(and, the model being functional, the tier value is untouched). -/
theorem c9_remove (t : PointTier) (p : Point) (it : IntervalTier) (iv : Interval) :
    ((∀ q ∈ t.objects, q.time ≠ p.time) → t.remove_point p = .error .notFound) ∧
      (∀ l1 q l2, t.objects = l1 ++ q :: l2 → q.time = p.time →
        (∀ r ∈ l1, r.time ≠ p.time) →
        t.remove_point p = .ok ⟨t.name, t.start_time, t.end_time, l1 ++ l2⟩) ∧
      ((∀ q ∈ it.objects, ¬(q.start_time = iv.start_time ∧ q.end_time = iv.end_time)) →
        it.remove_interval iv = .error .notFound) ∧
      (∀ l1 q l2, it.objects = l1 ++ q :: l2 →
        (q.start_time = iv.start_time ∧ q.end_time = iv.end_time) →
        (∀ r ∈ l1, ¬(r.start_time = iv.start_time ∧ r.end_time = iv.end_time)) →
        it.remove_interval iv = .ok ⟨it.name, it.start_time, it.end_time, l1 ++ l2⟩) := by
  refine ⟨?_, ?_, ?_, ?_⟩
  · intro h
    unfold PointTier.remove_point
    rw [listRemoveFirst_none _ _ (fun x hx => by simp [h x hx])]
  · intro l1 q l2 hobj hq hl
    unfold PointTier.remove_point
    rw [hobj, listRemoveFirst_split _ l1 q l2 (by simp [hq]) (fun y hy => by simp [hl y hy])]
  · intro h
    unfold IntervalTier.remove_interval
    rw [listRemoveFirst_none _ _ (fun x hx => by simp [Interval.eqB, h x hx])]
  · intro l1 q l2 hobj hq hl
    unfold IntervalTier.remove_interval
    rw [hobj, listRemoveFirst_split _ l1 q l2 (by simp [Interval.eqB, hq])
      (fun y hy => by simp [Interval.eqB, hl y hy])]

/-- C9 witness: removal at concrete tiers, hitting both the not-found
and the matched case. -/
theorem c9_remove_witness :
    PointTier.remove_point ⟨"t", 0, 2, [⟨1, "a"⟩]⟩ ⟨2, "x"⟩ = .error .notFound ∧
      PointTier.remove_point ⟨"t", 0, 2, [⟨1, "a"⟩, ⟨2, "b"⟩]⟩ ⟨2, "b"⟩ =
        .ok ⟨"t", 0, 2, [⟨1, "a"⟩]⟩ ∧
      IntervalTier.remove_interval ⟨"u", 0, 2, [⟨0, 1, "a"⟩]⟩ ⟨1, 2, "b"⟩ =
        .error .notFound := by
  refine ⟨?_, ?_, ?_⟩
  · exact (c9_remove ⟨"t", 0, 2, [⟨1, "a"⟩]⟩ ⟨2, "x"⟩ ⟨"u", 0, 2, [⟨0, 1, "a"⟩]⟩
      ⟨1, 2, "b"⟩).1 (by with_unfolding_all decide)
  · exact (c9_remove ⟨"t", 0, 2, [⟨1, "a"⟩, ⟨2, "b"⟩]⟩ ⟨2, "b"⟩ ⟨"u", 0, 2, [⟨0, 1, "a"⟩]⟩
      ⟨1, 2, "b"⟩).2.1 [⟨1, "a"⟩] ⟨2, "b"⟩ [] rfl rfl (by with_unfolding_all decide)
  · exact (c9_remove ⟨"t", 0, 2, [⟨1, "a"⟩]⟩ ⟨2, "x"⟩ ⟨"u", 0, 2, [⟨0, 1, "a"⟩]⟩
      ⟨1, 2, "b"⟩).2.2.1 (by with_unfolding_all decide)

/-- C10: indexing a document by an unmatched tier name returns `None`
(no exception), as does `index(name)`; string indexing never raises,
and integer indexing raises `IndexOutOfRange` exactly when the index
falls outside `[-len, len)`. -/
theorem c10_getitem_index (tg : TextGrid) (nm : String) (i : Int) :
    ((∀ t ∈ tg.objects, t.name ≠ nm) →
      tg.getItem (.str nm) = .ok none ∧ tg.index nm = none) ∧
      (∃ r, tg.getItem (.str nm) = .ok r) ∧
      ((i < -(tg.objects.length : Int) ∨ (tg.objects.length : Int) ≤ i) →
        tg.getItem (.int i) = .error .indexOutOfRange) ∧
      ((-(tg.objects.length : Int) ≤ i ∧ i < (tg.objects.length : Int)) →
        ∃ tr, tg.getItem (.int i) = .ok (some tr)) := by
  refine ⟨?_, ?_, ?_, ?_⟩
  · intro h
    constructor
    · show Except.ok (tg.objects.find? (fun t => t.name == nm)) = Except.ok none
      rw [List.find?_eq_none.mpr (fun x hx => by simp [h x hx])]
    · show tg.objects.findIdx? (fun t => t.name == nm) = none
      rw [findIdx?_none _ tg.objects 0 (fun x hx => beq_eq_false_iff_ne.mpr (h x hx))]
  · exact ⟨_, rfl⟩
  · intro h
    show (match pyIndex tg.objects.length i with
      | some j => Except.ok (some (tg.objects.getD j default))
      | none => Except.error TgError.indexOutOfRange) = Except.error TgError.indexOutOfRange
    rw [pyIndex_none _ _ h]
  · rintro ⟨h1, h2⟩
    obtain ⟨j, hj⟩ := pyIndex_some tg.objects.length i h1 h2
    show ∃ tr, (match pyIndex tg.objects.length i with
      | some j => Except.ok (some (tg.objects.getD j default))
      | none => Except.error TgError.indexOutOfRange) = Except.ok (some tr)
    rw [hj]
    exact ⟨_, rfl⟩

/-- C10 witness: a one-tier document, probed with a missing name, an
out-of-range index and an in-range index. -/
theorem c10_getitem_index_witness :
    (TextGrid.getItem ⟨"d", 0, 1, [.pt ⟨"a", 0, 1, []⟩]⟩ (.str "z") = .ok none ∧
      TextGrid.index ⟨"d", 0, 1, [.pt ⟨"a", 0, 1, []⟩]⟩ "z" = none) ∧
      TextGrid.getItem ⟨"d", 0, 1, [.pt ⟨"a", 0, 1, []⟩]⟩ (.int 5) = .error .indexOutOfRange ∧
      (∃ tr, TextGrid.getItem ⟨"d", 0, 1, [.pt ⟨"a", 0, 1, []⟩]⟩ (.int (-1)) = .ok (some tr)) := by
  refine ⟨?_, ?_, ?_⟩
  · exact (c10_getitem_index ⟨"d", 0, 1, [.pt ⟨"a", 0, 1, []⟩]⟩ "z" 5).1
      (by with_unfolding_all decide)
  · exact (c10_getitem_index ⟨"d", 0, 1, [.pt ⟨"a", 0, 1, []⟩]⟩ "z" 5).2.2.1
      (by with_unfolding_all decide)
  · exact (c10_getitem_index ⟨"d", 0, 1, [.pt ⟨"a", 0, 1, []⟩]⟩ "z" (-1)).2.2.2
      (by with_unfolding_all decide)

end Tg


